import Mathlib

/-
Verification development for the gcs-cacher repository (package cacher,
file cacher.go).  The Go code is shallowly embedded: the pure control
flow of Save, Restore, HashGlob/HashFiles and the per-entry tar
extraction handler is translated into executable Lean functions, with
the external collaborators (the GCS client, the archiver codec, the
local filesystem, the blake2b digest) modelled as explicit parameters
or as small executable state types.
-/

set_option autoImplicit false

namespace GcsCacher

/-! ## Key resolver (Cacher.Restore, cacher.go lines 186-214)

A store object is modelled by its name and its Updated timestamp
(`attrs.Updated` in Go, modelled as a Nat; `time.After` is `<` on Nat).
The listing returned for a prefix query is the store list filtered by
the string prefix relation, in enumeration (list) order. -/

structure ObjectAttrs where
  name : String
  updated : Nat
  deriving DecidableEq, Repr

/-- The prefix relation on strings used by the store's prefix query
(storage.Query Prefix): the name's character sequence starts with the
key's. -/
def prefixMatches (p s : String) : Bool :=
  p.data.isPrefixOf s.data

/-- One step of the resolver scan: mirrors
`if match == nil || attrs.Updated.After(match.Updated) { match = attrs }`. -/
def updateBest (m : Option ObjectAttrs) (attrs : ObjectAttrs) : Option ObjectAttrs :=
  match m with
  | none => some attrs
  | some b => if b.updated < attrs.updated then some attrs else some b

/-- The double loop of Restore: for each key, scan the objects whose name
has that key as a prefix, keeping a running best candidate. -/
def findMatch (store : List ObjectAttrs) (keys : List String) : Option ObjectAttrs :=
  keys.foldl
    (fun m key => (store.filter (fun o => prefixMatches key o.name)).foldl updateBest m)
    none

/-- All objects matching any of the key prefixes, in the order the double
loop of Restore enumerates them. -/
def matchesFor (store : List ObjectAttrs) (keys : List String) : List ObjectAttrs :=
  keys.flatMap (fun key => store.filter (fun o => prefixMatches key o.name))

/-! ## Save (Cacher.Save, cacher.go lines 68-144)

Save's interactions with the outside world are its probe of the object's
attributes, the archiver calls, and the close of the conditional GCS
writer; each is a parameter recording its outcome.  The deferred close
handler (lines 107-116) wraps a close error over any pending error; the
source contains no special case for a failed DoesNotExist precondition,
so a close rejected for that reason is wrapped exactly like any other
close error. -/

structure SaveRequest where
  bucket : String
  key : String
  dir : String
  deriving DecidableEq, Repr

inductive ProbeOutcome where
  | found
  | notFound
  | failed
  deriving DecidableEq, Repr

inductive ArchiveOutcome where
  | ok
  | filesError
  | archiveError
  deriving DecidableEq, Repr

inductive CloseOutcome where
  | ok
  | preconditionFailed
  | otherError
  deriving DecidableEq, Repr

inductive SaveBodyErr where
  | missingOptions
  | missingBucket
  | missingDirectory
  | missingKey
  | attrsCheckFailed
  | filesFromDiskFailed
  | archiveFailed
  deriving DecidableEq, Repr

inductive SaveErr where
  | body (e : SaveBodyErr)
  | closeFailed (prior : Option SaveBodyErr)
  deriving DecidableEq, Repr

structure SaveEffects where
  openedWriter : Bool
  archiveAttempted : Bool
  deriving DecidableEq, Repr

/-- The error pending when the deferred close runs, and whether
format.Archive was reached, as a function of the archiver outcomes
(cacher.go lines 126-141). -/
def archResult : ArchiveOutcome → Option SaveBodyErr × Bool
  | .filesError => (some .filesFromDiskFailed, false)
  | .archiveError => (some .archiveFailed, true)
  | .ok => (none, true)

/-- Control flow of Cacher.Save.  Returns the error result together with
which external effects were performed. -/
def save (req : Option SaveRequest) (probe : ProbeOutcome) (arch : ArchiveOutcome)
    (close : CloseOutcome) : Option SaveErr × SaveEffects :=
  match req with
  | none => (some (.body .missingOptions), ⟨false, false⟩)
  | some r =>
    if r.bucket = "" then (some (.body .missingBucket), ⟨false, false⟩)
    else if r.dir = "" then (some (.body .missingDirectory), ⟨false, false⟩)
    else if r.key = "" then (some (.body .missingKey), ⟨false, false⟩)
    else
      match probe with
      | .failed => (some (.body .attrsCheckFailed), ⟨false, false⟩)
      | .found => (none, ⟨false, false⟩)
      | .notFound =>
        let res := archResult arch
        match close with
        | .ok => (res.1.map .body, ⟨true, res.2⟩)
        | _ => (some (.closeFailed res.1), ⟨true, res.2⟩)

/-- A bucket's contents, as the list of object names present.  The probe
(lines 94-102) reports found exactly when the key is present. -/
def probeStore (store : List String) (key : String) : ProbeOutcome :=
  if key ∈ store then .found else .notFound

/-- Save run against a sequential model of the bucket: the conditional
create commits (and the object appears) exactly when the writer was
opened and its close succeeded. -/
def saveOnStore (store : List String) (r : SaveRequest) (arch : ArchiveOutcome)
    (close : CloseOutcome) : Option SaveErr × List String × SaveEffects :=
  let res := save (some r) (probeStore store r.key) arch close
  let created := res.2.openedWriter && (close == CloseOutcome.ok)
  (res.1, if created then store ++ [r.key] else store, res.2)

/-! ## Content hasher (Cacher.HashGlob / Cacher.HashFiles, lines 329-392)

The local filesystem seen by the hasher maps a path to nothing (open
fails), a directory, or a regular file with byte content.  The blake2b
digest is an opaque parameter; `hexEncode` is fmt's lowercase `%x`. -/

inductive HashNode where
  | dirNode
  | fileNode (content : List Nat)
  deriving DecidableEq, Repr

inductive HashErr where
  | openFailed (name : String)
  deriving DecidableEq, Repr

/-- One iteration of the hashing loop (the hashOne closure): open the
path, stat it, skip it if it is a directory, else stream its bytes into
the accumulator.  The accumulator is the byte stream consumed so far. -/
def hashOne (hfs : String → Option HashNode) (acc : List Nat) (name : String) :
    Except HashErr (List Nat) :=
  match hfs name with
  | none => .error (.openFailed name)
  | some .dirNode => .ok acc
  | some (.fileNode c) => .ok (acc ++ c)

/-- The loop over the file list; the first failure aborts. -/
def hashAcc (hfs : String → Option HashNode) :
    List Nat → List String → Except HashErr (List Nat)
  | acc, [] => .ok acc
  | acc, n :: rest =>
    match hashOne hfs acc n with
    | .error e => .error e
    | .ok acc2 => hashAcc hfs acc2 rest

def hexDigit (n : Nat) : Char :=
  if n < 10 then Char.ofNat (48 + n) else Char.ofNat (87 + n)

def hexByte (b : Nat) : List Char :=
  [hexDigit (b / 16 % 16), hexDigit (b % 16)]

/-- Lowercase hex encoding of a byte list, two characters per byte. -/
def hexEncode (l : List Nat) : String :=
  ⟨(l.map hexByte).flatten⟩

/-- Cacher.HashFiles: fold the file contents into one accumulator, then
finalize the digest once and hex-encode it. -/
def hashFiles (hfs : String → Option HashNode) (digest : List Nat → List Nat)
    (files : List String) : Except HashErr String :=
  match hashAcc hfs [] files with
  | .error e => .error e
  | .ok acc => .ok (hexEncode (digest acc))

/-- Cacher.HashGlob delegates the expanded match list to HashFiles; the
glob expansion itself is external, so the match list is a parameter. -/
def hashGlob (hfs : String → Option HashNode) (digest : List Nat → List Nat)
    (globMatches : List String) : Except HashErr String :=
  hashFiles hfs digest globMatches

/-- The concatenation of the byte contents of the non-directory entries
of the list, in input order: the stream the spec says gets digested. -/
def nonDirContents (hfs : String → Option HashNode) (files : List String) : List Nat :=
  (files.map (fun n =>
    match hfs n with
    | some (.fileNode c) => c
    | _ => [])).flatten

/-! ## Local filesystem model for extraction

Paths are lists of name components; filepath.Join of clean relative
paths is concatenation of their component lists.  The filesystem is a
finite map from paths to nodes, newest binding first. -/

abbrev Path := List String

inductive Node where
  | dir
  | file (content : List Nat) (mode : Nat)
  | symlink (target : String)
  deriving DecidableEq, Repr

abbrev FS := List (Path × Node)

def FS.lookup : FS → Path → Option Node
  | [], _ => none
  | (q, n) :: rest, p => if q = p then some n else FS.lookup rest p

def FS.insert (fs : FS) (p : Path) (n : Node) : FS :=
  (p, n) :: fs

/-- The nonempty prefixes of a path, shortest first, the path itself last. -/
def pathPrefixes (p : Path) : List Path :=
  (List.range p.length).map (fun i => p.take (i + 1))

def isDirOrAbsent (fs : FS) (q : Path) : Bool :=
  match fs.lookup q with
  | none => true
  | some .dir => true
  | some _ => false

/-- os.MkdirAll: succeeds (creating every missing ancestor directory,
idempotently) unless some prefix of the path exists as a non-directory. -/
def mkdirAll (fs : FS) (p : Path) : Option FS :=
  if (pathPrefixes p).all (isDirOrAbsent fs) then
    some ((pathPrefixes p).foldl (fun f q => FS.insert f q .dir) fs)
  else
    none

def isDirAt (fs : FS) (q : Path) : Bool :=
  match fs.lookup q with
  | some .dir => true
  | _ => false

/-- Whether the parent directory of a path exists (the empty parent is
the working directory and always exists). -/
def parentOk (fs : FS) (p : Path) : Bool :=
  p.dropLast.isEmpty || isDirAt fs p.dropLast

/-- os.Create: make (or truncate) a regular file; fails when the path is
an existing directory or the parent directory is missing.  A freshly
created file has empty content and the default creation mode 0666. -/
def createFile (fs : FS) (p : Path) : Option FS :=
  if parentOk fs p then
    match fs.lookup p with
    | some .dir => none
    | _ => some (fs.insert p (.file [] 438))
  else
    none

/-- Chmod on the just-created file handle: set the mode bits, keeping
the content. -/
def chmodFile (fs : FS) (p : Path) (m : Nat) : FS :=
  match fs.lookup p with
  | some (.file c _) => fs.insert p (.file c m)
  | _ => fs

/-- io.Copy into the created file handle: replace the (empty) content,
keeping the mode bits. -/
def writeContent (fs : FS) (p : Path) (c : List Nat) : FS :=
  match fs.lookup p with
  | some (.file _ m) => fs.insert p (.file c m)
  | _ => fs

/-- os.Symlink target p: record the target string verbatim; fails when
the path already exists or the parent directory is missing. -/
def symlinkFile (fs : FS) (target : String) (p : Path) : Option FS :=
  if parentOk fs p then
    match fs.lookup p with
    | some _ => none
    | none => some (fs.insert p (.symlink target))
  else
    none

/-- os.Link old p: create a hard link at p to the existing regular file
at old; fails when old is absent or not a regular file, when p already
exists, or when the parent directory of p is missing.  (Aliasing of the
two names after creation is not tracked; no claim depends on it.) -/
def linkFile (fs : FS) (old p : Path) : Option FS :=
  if parentOk fs p then
    match fs.lookup old with
    | some (.file c m) =>
      match fs.lookup p with
      | some _ => none
      | none => some (fs.insert p (.file c m))
    | _ => none
  else
    none

def splitPathAux : List Char → List Char → Path
  | acc, [] => [String.mk acc.reverse]
  | acc, c :: rest =>
    if c = '/' then String.mk acc.reverse :: splitPathAux [] rest
    else splitPathAux (c :: acc) rest

/-- filepath-style split of a clean relative path string into its
slash-separated components. -/
def splitPath (s : String) : Path :=
  if s = "" then [] else splitPathAux [] s.data

/-! ## Archive entries and the extraction handler
(Cacher.Restore handler, cacher.go lines 252-322) -/

inductive TarType where
  | reg
  | regA
  | char
  | block
  | fifo
  | dirType
  | symlink
  | link
  | xGlobalHeader
  | other (c : Char)
  deriving DecidableEq, Repr

/-- One archive entry as the handler sees it: `isTarHeader` is the
`f.Header.(*tar.Header)` type assertion; `name` is f.NameInArchive split
into components; `content` is the byte stream f.Open delivers. -/
structure TarEntry where
  isTarHeader : Bool
  name : Path
  typeflag : TarType
  linkname : String
  mode : Nat
  content : List Nat
  deriving DecidableEq, Repr

inductive EntryErr where
  | mkdirFailed (p : Path)
  | createFailed (p : Path)
  | chmodFailed (p : Path)
  | symlinkFailed (p : Path)
  | linkFailed (p : Path)
  | unknownType (name : Path) (t : TarType)
  deriving DecidableEq, Repr

/-- The filesystem calls the handler issues, in issue order. -/
inductive FsOp where
  | mkdirAllOp (p : Path)
  | createOp (p : Path)
  | chmodOp (p : Path) (mode : Nat)
  | copyOp (p : Path)
  | symlinkOp (target : String) (p : Path)
  | linkOp (old p : Path)
  deriving DecidableEq, Repr

structure HandlerResult where
  ops : List FsOp
  fs : FS
  err : Option EntryErr
  deriving DecidableEq, Repr

/-- The per-entry extraction handler.  `dirRoot` is the target directory
(the `dir` of the RestoreRequest), so fpath = filepath.Join(dir,
f.NameInArchive) is dirRoot consed onto the entry components.  `goos`
is runtime.GOOS and `chmodFail` says which Chmod calls fail; a Chmod
failure is returned as an error unless running on Windows (line 280).
For a hardlink the source passes filepath.Join(fpath, hdr.Linkname) —
the link target joined onto the entry's own path — to os.Link
(line 311). -/
def handler (goos : String) (chmodFail : Path → Bool) (dirRoot : String)
    (fs : FS) (f : TarEntry) : HandlerResult :=
  if !f.isTarHeader then ⟨[], fs, none⟩
  else
    let fpath : Path := dirRoot :: f.name
    match f.typeflag with
    | .dirType =>
      match mkdirAll fs fpath with
      | some fs1 => ⟨[.mkdirAllOp fpath], fs1, none⟩
      | none => ⟨[.mkdirAllOp fpath], fs, some (.mkdirFailed fpath)⟩
    | .reg | .regA | .char | .block | .fifo =>
      let parent := fpath.dropLast
      match mkdirAll fs parent with
      | none => ⟨[.mkdirAllOp parent], fs, some (.mkdirFailed parent)⟩
      | some fs1 =>
        match createFile fs1 fpath with
        | none => ⟨[.mkdirAllOp parent, .createOp fpath], fs1, some (.createFailed fpath)⟩
        | some fs2 =>
          if chmodFail fpath ∧ goos ≠ "windows" then
            ⟨[.mkdirAllOp parent, .createOp fpath, .chmodOp fpath f.mode], fs2,
              some (.chmodFailed fpath)⟩
          else
            let fs3 := if chmodFail fpath then fs2 else chmodFile fs2 fpath f.mode
            ⟨[.mkdirAllOp parent, .createOp fpath, .chmodOp fpath f.mode, .copyOp fpath],
              writeContent fs3 fpath f.content, none⟩
    | .symlink =>
      let parent := fpath.dropLast
      match mkdirAll fs parent with
      | none => ⟨[.mkdirAllOp parent], fs, some (.mkdirFailed parent)⟩
      | some fs1 =>
        match symlinkFile fs1 f.linkname fpath with
        | none => ⟨[.mkdirAllOp parent, .symlinkOp f.linkname fpath], fs1,
            some (.symlinkFailed fpath)⟩
        | some fs2 => ⟨[.mkdirAllOp parent, .symlinkOp f.linkname fpath], fs2, none⟩
    | .link =>
      let parent := fpath.dropLast
      let old := fpath ++ splitPath f.linkname
      match mkdirAll fs parent with
      | none => ⟨[.mkdirAllOp parent], fs, some (.mkdirFailed parent)⟩
      | some fs1 =>
        match linkFile fs1 old fpath with
        | none => ⟨[.mkdirAllOp parent, .linkOp old fpath], fs1, some (.linkFailed fpath)⟩
        | some fs2 => ⟨[.mkdirAllOp parent, .linkOp old fpath], fs2, none⟩
    | .xGlobalHeader => ⟨[], fs, none⟩
    | .other c => ⟨[], fs, some (.unknownType f.name (.other c))⟩

/-- archiver's format.Extract: feed each entry to the handler in stream
order; a handler error aborts the extraction and is Extract's return
value. -/
def extract (goos : String) (chmodFail : Path → Bool) (dirRoot : String) :
    FS → List TarEntry → FS × Option EntryErr
  | fs, [] => (fs, none)
  | fs, e :: rest =>
    let r := handler goos chmodFail dirRoot fs e
    match r.err with
    | some err => (r.fs, some err)
    | none => extract goos chmodFail dirRoot r.fs rest

/-! ## Restore (Cacher.Restore, cacher.go lines 159-327) -/

structure RestoreRequest where
  bucket : String
  keys : List String
  dir : String
  deriving DecidableEq, Repr

inductive RestoreBodyErr where
  | missingOptions
  | missingBucket
  | missingDirectory
  | missingKeys
  | notFoundAmongKeys (keys : List String)
  | mkdirTargetFailed
  | readerOpenFailed
  deriving DecidableEq, Repr

inductive RestoreErr where
  | body (e : RestoreBodyErr)
  | closeFailed (prior : Option RestoreBodyErr)
  deriving DecidableEq, Repr

structure RestoreOutcome where
  retErr : Option RestoreErr
  madeTargetDir : Bool
  openedReader : Bool
  fs : FS
  deriving DecidableEq, Repr

/-- Control flow of Cacher.Restore.  `store` is the bucket listing,
`entriesOf` gives the archive entry stream of an object by name,
`readerFails` and `closeFails` are the outcomes of opening and closing
the GCS reader.  NOTE the translation of line 324: the return value of
format.Extract is discarded by the source, so an extraction error never
reaches retErr; only the extracted filesystem state survives. -/
def restore (req : Option RestoreRequest) (store : List ObjectAttrs)
    (entriesOf : String → List TarEntry) (readerFails : Bool) (closeFails : Bool)
    (goos : String) (chmodFail : Path → Bool) (initFS : FS) : RestoreOutcome :=
  match req with
  | none => ⟨some (.body .missingOptions), false, false, initFS⟩
  | some r =>
    if r.bucket = "" then ⟨some (.body .missingBucket), false, false, initFS⟩
    else if r.dir = "" then ⟨some (.body .missingDirectory), false, false, initFS⟩
    else if r.keys.length < 1 then ⟨some (.body .missingKeys), false, false, initFS⟩
    else
      match findMatch store r.keys with
      | none => ⟨some (.body (.notFoundAmongKeys r.keys)), false, false, initFS⟩
      | some m =>
        match mkdirAll initFS [r.dir] with
        | none => ⟨some (.body .mkdirTargetFailed), true, false, initFS⟩
        | some fs1 =>
          if readerFails then ⟨some (.body .readerOpenFailed), true, false, fs1⟩
          else
            let res := extract goos chmodFail r.dir fs1 (entriesOf m.name)
            if closeFails then ⟨some (.closeFailed none), true, true, res.1⟩
            else ⟨none, true, true, res.1⟩

/-! ## Resolver lemmas -/

theorem matchesFor_cons (store : List ObjectAttrs) (k : String) (ks : List String) :
    matchesFor store (k :: ks)
      = store.filter (fun o => prefixMatches k o.name) ++ matchesFor store ks := by
  simp [matchesFor]

theorem scan_foldl_eq (store : List ObjectAttrs) (keys : List String)
    (init : Option ObjectAttrs) :
    keys.foldl
        (fun m key => (store.filter (fun o => prefixMatches key o.name)).foldl updateBest m)
        init
      = (matchesFor store keys).foldl updateBest init := by
  induction keys generalizing init with
  | nil => rfl
  | cons k ks ih =>
    rw [List.foldl_cons, matchesFor_cons, List.foldl_append, ih]

theorem findMatch_eq (store : List ObjectAttrs) (keys : List String) :
    findMatch store keys = (matchesFor store keys).foldl updateBest none :=
  scan_foldl_eq store keys none

theorem foldl_updateBest_some (l : List ObjectAttrs) (b m : ObjectAttrs)
    (h : l.foldl updateBest (some b) = some m) :
    (m = b ∧ ∀ o ∈ l, o.updated ≤ b.updated) ∨
    (∃ l1 l2, l = l1 ++ m :: l2 ∧ b.updated < m.updated ∧
      (∀ o ∈ l1, o.updated < m.updated) ∧ (∀ o ∈ l2, o.updated ≤ m.updated)) := by
  induction l generalizing b with
  | nil =>
    left
    exact ⟨(Option.some.inj h).symm, by simp⟩
  | cons x xs ih =>
    by_cases hx : b.updated < x.updated
    · have h2 : xs.foldl updateBest (some x) = some m := by
        simpa [updateBest, hx] using h
      rcases ih x h2 with ⟨rfl, hall⟩ | ⟨l1, l2, rfl, hlt, h1, hrest⟩
      · right
        exact ⟨[], xs, rfl, hx, by simp, hall⟩
      · right
        refine ⟨x :: l1, l2, rfl, lt_trans hx hlt, ?_, hrest⟩
        intro o ho
        rcases List.mem_cons.mp ho with rfl | ho
        · exact hlt
        · exact h1 o ho
    · have h2 : xs.foldl updateBest (some b) = some m := by
        simpa [updateBest, hx] using h
      rcases ih b h2 with ⟨rfl, hall⟩ | ⟨l1, l2, rfl, hlt, h1, hrest⟩
      · left
        refine ⟨rfl, ?_⟩
        intro o ho
        rcases List.mem_cons.mp ho with rfl | ho
        · exact Nat.le_of_not_lt hx
        · exact hall o ho
      · right
        refine ⟨x :: l1, l2, rfl, hlt, ?_, hrest⟩
        intro o ho
        rcases List.mem_cons.mp ho with rfl | ho
        · exact Nat.lt_of_le_of_lt (Nat.le_of_not_lt hx) hlt
        · exact h1 o ho

theorem foldl_updateBest_none_some (l : List ObjectAttrs) (m : ObjectAttrs)
    (h : l.foldl updateBest none = some m) :
    ∃ l1 l2, l = l1 ++ m :: l2 ∧ (∀ o ∈ l1, o.updated < m.updated) ∧
      (∀ o ∈ l2, o.updated ≤ m.updated) := by
  match l with
  | [] => cases h
  | x :: xs =>
    have h2 : xs.foldl updateBest (some x) = some m := h
    rcases foldl_updateBest_some xs x m h2 with ⟨rfl, hall⟩ | ⟨l1, l2, rfl, _, h1, hrest⟩
    · exact ⟨[], xs, rfl, by simp, hall⟩
    · refine ⟨x :: l1, l2, rfl, ?_, hrest⟩
      intro o ho
      rcases List.mem_cons.mp ho with rfl | ho
      · exact Nat.lt_of_le_of_lt (Nat.le_refl _) ‹o.updated < m.updated›
      · exact h1 o ho

/-- C6: the key resolver scans the matches of all keys in enumeration
order and returns the first match carrying the maximal updated
timestamp: every earlier-enumerated match is strictly older, every
later-enumerated match is no newer (so the running best is replaced
only on a strictly later timestamp and ties keep the earlier
candidate). -/
theorem keyResolver_first_newest (store : List ObjectAttrs) (keys : List String)
    (m : ObjectAttrs) (h : findMatch store keys = some m) :
    ∃ l1 l2, matchesFor store keys = l1 ++ m :: l2 ∧
      (∀ o ∈ l1, o.updated < m.updated) ∧ (∀ o ∈ l2, o.updated ≤ m.updated) := by
  apply foldl_updateBest_none_some
  rw [← findMatch_eq]
  exact h

theorem keyResolver_first_newest_witness :
    findMatch [⟨"k-1", 1⟩, ⟨"k-2", 2⟩] ["k"] = some ⟨"k-2", 2⟩ ∧
    ∃ l1 l2, matchesFor [⟨"k-1", 1⟩, ⟨"k-2", 2⟩] ["k"]
        = l1 ++ (⟨"k-2", 2⟩ : ObjectAttrs) :: l2 ∧
      (∀ o ∈ l1, o.updated < (⟨"k-2", 2⟩ : ObjectAttrs).updated) ∧
      (∀ o ∈ l2, o.updated ≤ (⟨"k-2", 2⟩ : ObjectAttrs).updated) :=
  ⟨by decide, keyResolver_first_newest _ _ _ (by decide)⟩

/-! ## Save theorems -/

/-- C2 counterexample: a conditional write rejected at commit because
the DoesNotExist precondition failed surfaces as an error from Save,
not as success: the deferred close handler wraps every close error. -/
theorem save_preconditionFailed_is_error :
    (save (some ⟨"b", "k", "d"⟩) .notFound .ok .preconditionFailed).1
      = some (.closeFailed none) := by decide

/-- C2 amended: Save propagates every failure of the conditional
writer's close as an error wrapping the pending error; a close that
failed because the create-if-absent precondition was violated is
treated exactly like any other close failure, not as success. -/
theorem save_close_error_propagates (r : SaveRequest) (arch : ArchiveOutcome)
    (close : CloseOutcome)
    (hb : r.bucket ≠ "") (hd : r.dir ≠ "") (hk : r.key ≠ "") (hc : close ≠ .ok) :
    (save (some r) .notFound arch close).1
        = some (.closeFailed (archResult arch).1) ∧
    save (some r) .notFound arch .preconditionFailed
      = save (some r) .notFound arch .otherError := by
  constructor
  · cases close with
    | ok => exact absurd rfl hc
    | preconditionFailed => simp [save, hb, hd, hk]
    | otherError => simp [save, hb, hd, hk]
  · simp [save, hb, hd, hk]

theorem save_close_error_propagates_witness :
    ((("b" : String) ≠ "") ∧ (("d" : String) ≠ "") ∧ (("k" : String) ≠ "") ∧
      (CloseOutcome.preconditionFailed ≠ CloseOutcome.ok)) ∧
    (save (some ⟨"b", "k", "d"⟩) .notFound .ok .preconditionFailed).1
      = some (.closeFailed (archResult .ok).1) :=
  ⟨⟨by decide, by decide, by decide, by decide⟩,
    (save_close_error_propagates ⟨"b", "k", "d"⟩ .ok .preconditionFailed
      (by decide) (by decide) (by decide) (by decide)).1⟩

/-- C7: Save is idempotent.  If the first call succeeded, the second
call with identical arguments probes, finds the object, and returns
success without opening a writer or attempting an upload; the store
keeps a single object under the key. -/
theorem save_idempotent (store : List String) (r : SaveRequest)
    (arch : ArchiveOutcome) (close : CloseOutcome)
    (arch2 : ArchiveOutcome) (close2 : CloseOutcome)
    (hb : r.bucket ≠ "") (hd : r.dir ≠ "") (hk : r.key ≠ "")
    (hcount : store.count r.key ≤ 1)
    (h1 : (saveOnStore store r arch close).1 = none) :
    saveOnStore (saveOnStore store r arch close).2.1 r arch2 close2
      = (none, (saveOnStore store r arch close).2.1, ⟨false, false⟩) ∧
    (saveOnStore store r arch close).2.1.count r.key ≤ 1 := by
  by_cases hmem : r.key ∈ store
  · have hstore : (saveOnStore store r arch close).2.1 = store := by
      simp [saveOnStore, save, probeStore, hb, hd, hk, hmem]
    rw [hstore]
    refine ⟨?_, hcount⟩
    simp [saveOnStore, save, probeStore, hb, hd, hk, hmem]
  · have hclose : close = .ok := by
      cases close with
      | ok => rfl
      | preconditionFailed =>
        simp [saveOnStore, save, probeStore, hb, hd, hk, hmem] at h1
      | otherError =>
        simp [saveOnStore, save, probeStore, hb, hd, hk, hmem] at h1
    subst hclose
    have hstore : (saveOnStore store r arch .ok).2.1 = store ++ [r.key] := by
      simp [saveOnStore, save, probeStore, hb, hd, hk, hmem]
    rw [hstore]
    have hmem2 : r.key ∈ store ++ [r.key] := by simp
    refine ⟨?_, ?_⟩
    · simp [saveOnStore, save, probeStore, hb, hd, hk, hmem2]
    · have : store.count r.key = 0 := List.count_eq_zero.mpr hmem
      simp [List.count_append, this]

theorem save_idempotent_witness :
    ((("b" : String) ≠ "") ∧ (("d" : String) ≠ "") ∧ (("k" : String) ≠ "") ∧
      (([] : List String).count "k" ≤ 1) ∧
      (saveOnStore [] ⟨"b", "k", "d"⟩ .ok .ok).1 = none) ∧
    saveOnStore (saveOnStore [] ⟨"b", "k", "d"⟩ .ok .ok).2.1 ⟨"b", "k", "d"⟩ .ok .ok
      = (none, (saveOnStore [] ⟨"b", "k", "d"⟩ .ok .ok).2.1, ⟨false, false⟩) :=
  ⟨⟨by decide, by decide, by decide, by decide, by decide⟩,
    (save_idempotent [] ⟨"b", "k", "d"⟩ .ok .ok .ok .ok
      (by decide) (by decide) (by decide) (by decide) (by decide)).1⟩

/-! ## Extraction and Restore theorems -/

/-- C1: the source's Restore DISCARDS the return value of format.Extract
(cacher.go line 324).  On an archive whose only entry has an unsupported
type flag the handler fails and Extract aborts with that error, yet
Restore returns success: extraction failed but retErr is none.  This
contradicts the specified propagation of per-entry failures. -/
theorem restore_discards_entry_error :
    restore (some ⟨"b", ["k1"], "dest"⟩) [⟨"k1", 5⟩]
        (fun _ => [⟨true, ["weird"], .other 'Z', "", 0, []⟩]) false false
        "linux" (fun _ => false) []
      = ⟨none, true, true, [(["dest"], .dir)]⟩ ∧
    (extract "linux" (fun _ => false) "dest" [(["dest"], .dir)]
        [⟨true, ["weird"], .other 'Z', "", 0, []⟩]).2
      = some (.unknownType ["weird"] (.other 'Z')) := by
  exact ⟨by decide, by decide⟩

/-- C4: for a hardlink entry the source calls os.Link with
filepath.Join(fpath, hdr.Linkname) — the recorded target joined onto the
entry's own path — instead of resolving it against the destination root
(cacher.go line 311).  On a well-formed archive in which the target
entry precedes the link, the root-relative path holds the extracted
file, the code's path does not exist, and the link step fails. -/
theorem hardlink_target_joined_to_entry_path :
    (extract "linux" (fun _ => false) "dest" [(["dest"], .dir)]
        [⟨true, ["a", "orig"], .reg, "", 420, [9]⟩,
         ⟨true, ["a", "b"], .link, "a/orig", 0, []⟩]).2
      = some (.linkFailed ["dest", "a", "b"]) ∧
    (extract "linux" (fun _ => false) "dest" [(["dest"], .dir)]
        [⟨true, ["a", "orig"], .reg, "", 420, [9]⟩,
         ⟨true, ["a", "b"], .link, "a/orig", 0, []⟩]).1.lookup
        (("dest" :: ["a", "b"]) ++ splitPath "a/orig") = none ∧
    (extract "linux" (fun _ => false) "dest" [(["dest"], .dir)]
        [⟨true, ["a", "orig"], .reg, "", 420, [9]⟩,
         ⟨true, ["a", "b"], .link, "a/orig", 0, []⟩]).1.lookup
        ("dest" :: splitPath "a/orig") = some (.file [9] 420) ∧
    (("dest" :: ["a", "b"]) ++ splitPath "a/orig") ≠ ("dest" :: splitPath "a/orig") := by
  exact ⟨by decide, by decide, by decide, by decide⟩

/-- C5 counterexample: for a regular-file entry the handler issues
Chmod before the content copy — the op trace is MkdirAll, Create,
Chmod, Copy — not the claimed MkdirAll, Create, Copy, Chmod order. -/
theorem chmod_precedes_copy :
    (handler "linux" (fun _ => false) "dest" [(["dest"], .dir)]
        ⟨true, ["f"], .reg, "", 420, [1]⟩).ops
      = [.mkdirAllOp ["dest"], .createOp ["dest", "f"],
         .chmodOp ["dest", "f"] 420, .copyOp ["dest", "f"]] ∧
    (handler "linux" (fun _ => false) "dest" [(["dest"], .dir)]
        ⟨true, ["f"], .reg, "", 420, [1]⟩).ops
      ≠ [.mkdirAllOp ["dest"], .createOp ["dest", "f"],
         .copyOp ["dest", "f"], .chmodOp ["dest", "f"] 420] := by
  exact ⟨by decide, by decide⟩

theorem createFile_some {fs fs' : FS} {p : Path} (h : createFile fs p = some fs') :
    fs' = fs.insert p (.file [] 438) := by
  unfold createFile at h
  split at h
  · split at h
    · cases h
    · exact (Option.some.inj h).symm
  · cases h

/-- C5 amended: for every regular-family archive entry (reg, legacy reg,
char, block, fifo) whose MkdirAll and Create steps succeed, the handler
performs, in this order: create parent directories, create the file,
apply the recorded mode bits, then copy the content byte-for-byte — the
mode application precedes the copy — with mode application best-effort
(a failure is not an error) on Windows, the platform without a
compatible permission model.  The case split on the Chmod outcome is
complete: when Chmod succeeds, the four operations run in that order
and the restored file carries the recorded mode; when Chmod fails under
Windows, the failure is ignored and the copy still happens, the file
keeping its creation mode; when Chmod fails elsewhere, the entry aborts
with the chmod error after MkdirAll, Create, Chmod — still no copy
before the mode application. -/
theorem reg_entry_operation_order (goos : String) (chmodFail : Path → Bool)
    (d : String) (fs fs1 fs2 : FS) (e : TarEntry)
    (ht : e.isTarHeader = true)
    (hty : e.typeflag = .reg ∨ e.typeflag = .regA ∨ e.typeflag = .char ∨
      e.typeflag = .block ∨ e.typeflag = .fifo)
    (hmk : mkdirAll fs (d :: e.name).dropLast = some fs1)
    (hcr : createFile fs1 (d :: e.name) = some fs2) :
    (chmodFail (d :: e.name) = false →
      (handler goos chmodFail d fs e).err = none ∧
      (handler goos chmodFail d fs e).ops
        = [.mkdirAllOp (d :: e.name).dropLast, .createOp (d :: e.name),
           .chmodOp (d :: e.name) e.mode, .copyOp (d :: e.name)] ∧
      (handler goos chmodFail d fs e).fs.lookup (d :: e.name)
        = some (.file e.content e.mode)) ∧
    (chmodFail (d :: e.name) = true → goos = "windows" →
      (handler goos chmodFail d fs e).err = none ∧
      (handler goos chmodFail d fs e).ops
        = [.mkdirAllOp (d :: e.name).dropLast, .createOp (d :: e.name),
           .chmodOp (d :: e.name) e.mode, .copyOp (d :: e.name)] ∧
      (handler goos chmodFail d fs e).fs.lookup (d :: e.name)
        = some (.file e.content 438)) ∧
    (chmodFail (d :: e.name) = true → goos ≠ "windows" →
      (handler goos chmodFail d fs e).err = some (.chmodFailed (d :: e.name)) ∧
      (handler goos chmodFail d fs e).ops
        = [.mkdirAllOp (d :: e.name).dropLast, .createOp (d :: e.name),
           .chmodOp (d :: e.name) e.mode]) := by
  have hfs2 : fs2 = fs1.insert (d :: e.name) (.file [] 438) := createFile_some hcr
  refine ⟨?_, ?_, ?_⟩
  · intro hcf
    have hcond : ¬(chmodFail (d :: e.name) = true ∧ goos ≠ "windows") := by
      rw [hcf]
      simp
    have hred : handler goos chmodFail d fs e
        = ⟨[.mkdirAllOp (d :: e.name).dropLast, .createOp (d :: e.name),
            .chmodOp (d :: e.name) e.mode, .copyOp (d :: e.name)],
           writeContent (chmodFile fs2 (d :: e.name) e.mode)
             (d :: e.name) e.content, none⟩ := by
      rcases hty with h5 | h5 | h5 | h5 | h5 <;>
        simp [handler, ht, h5, hmk, hcr, hcond, hcf]
    rw [hred]
    refine ⟨rfl, rfl, ?_⟩
    subst hfs2
    simp [chmodFile, writeContent, FS.insert, FS.lookup]
  · intro hcf hw
    have hcond : ¬(chmodFail (d :: e.name) = true ∧ goos ≠ "windows") := by
      rw [hw]
      simp
    have hred : handler goos chmodFail d fs e
        = ⟨[.mkdirAllOp (d :: e.name).dropLast, .createOp (d :: e.name),
            .chmodOp (d :: e.name) e.mode, .copyOp (d :: e.name)],
           writeContent fs2 (d :: e.name) e.content, none⟩ := by
      rcases hty with h5 | h5 | h5 | h5 | h5 <;>
        simp [handler, ht, h5, hmk, hcr, hcond, hcf, hw]
    rw [hred]
    refine ⟨rfl, rfl, ?_⟩
    subst hfs2
    simp [writeContent, FS.insert, FS.lookup]
  · intro hcf hw
    have hcond : chmodFail (d :: e.name) = true ∧ goos ≠ "windows" := ⟨hcf, hw⟩
    rcases hty with h5 | h5 | h5 | h5 | h5 <;>
      simp [handler, ht, h5, hmk, hcr, hcond]

theorem reg_entry_operation_order_witness :
    ((mkdirAll [(["dest"], Node.dir)] ["dest"]
        = some [(["dest"], Node.dir), (["dest"], Node.dir)]) ∧
     (createFile [(["dest"], Node.dir), (["dest"], Node.dir)] ["dest", "f"]
        = some [(["dest", "f"], Node.file [] 438),
                (["dest"], Node.dir), (["dest"], Node.dir)])) ∧
    ((handler "linux" (fun _ => false) "dest" [(["dest"], Node.dir)]
        ⟨true, ["f"], .reg, "", 420, [1]⟩).err = none ∧
     (handler "linux" (fun _ => false) "dest" [(["dest"], Node.dir)]
        ⟨true, ["f"], .reg, "", 420, [1]⟩).ops
        = [.mkdirAllOp ["dest"], .createOp ["dest", "f"],
           .chmodOp ["dest", "f"] 420, .copyOp ["dest", "f"]] ∧
     (handler "linux" (fun _ => false) "dest" [(["dest"], Node.dir)]
        ⟨true, ["f"], .reg, "", 420, [1]⟩).fs.lookup ["dest", "f"]
        = some (.file [1] 420)) :=
  ⟨⟨by decide, by decide⟩,
    (reg_entry_operation_order "linux" (fun _ => false) "dest"
      [(["dest"], Node.dir)] [(["dest"], Node.dir), (["dest"], Node.dir)]
      [(["dest", "f"], Node.file [] 438), (["dest"], Node.dir), (["dest"], Node.dir)]
      ⟨true, ["f"], .reg, "", 420, [1]⟩ rfl (Or.inl rfl)
      (by decide) (by decide)).1 rfl⟩

theorem findMatch_eq_none (store : List ObjectAttrs) (keys : List String)
    (h : ∀ k ∈ keys, ∀ o ∈ store, prefixMatches k o.name = false) :
    findMatch store keys = none := by
  rw [findMatch_eq]
  have hm : matchesFor store keys = [] := by
    simp only [matchesFor, List.flatMap_eq_nil_iff]
    intro k hk
    rw [List.filter_eq_nil_iff]
    intro o ho
    rw [h k hk o ho]
    exact Bool.false_ne_true
  rw [hm]
  rfl

/-- C8: when no object in the store has any of the supplied keys as a
name prefix, Restore fails with the not-found error naming all the
attempted keys, without creating the target directory, opening any
object reader, or touching the filesystem. -/
theorem restore_notFound_no_effects (bucket dirS : String) (keys : List String)
    (store : List ObjectAttrs) (entriesOf : String → List TarEntry)
    (readerFails closeFails : Bool) (goos : String) (chmodFail : Path → Bool)
    (initFS : FS)
    (hb : bucket ≠ "") (hd : dirS ≠ "") (hk : keys ≠ [])
    (hnone : ∀ k ∈ keys, ∀ o ∈ store, prefixMatches k o.name = false) :
    restore (some ⟨bucket, keys, dirS⟩) store entriesOf readerFails closeFails
        goos chmodFail initFS
      = ⟨some (.body (.notFoundAmongKeys keys)), false, false, initFS⟩ := by
  have hm := findMatch_eq_none store keys hnone
  have hlen : ¬(keys.length < 1) := by
    intro hcontra
    exact hk (List.length_eq_zero.mp (Nat.lt_one_iff.mp hcontra))
  simp [restore, hb, hd, hlen, hm]

theorem restore_notFound_no_effects_witness :
    ((("b" : String) ≠ "") ∧ (("dest" : String) ≠ "") ∧
      (["nope"] ≠ ([] : List String)) ∧
      (∀ k ∈ ["nope"], ∀ o ∈ [(⟨"other", 1⟩ : ObjectAttrs)],
        prefixMatches k o.name = false)) ∧
    restore (some ⟨"b", ["nope"], "dest"⟩) [⟨"other", 1⟩] (fun _ => [])
        false false "linux" (fun _ => false) []
      = ⟨some (.body (.notFoundAmongKeys ["nope"])), false, false, []⟩ :=
  ⟨⟨by decide, by decide, by decide, by decide⟩,
    restore_notFound_no_effects "b" "dest" ["nope"] [⟨"other", 1⟩] (fun _ => [])
      false false "linux" (fun _ => false) []
      (by decide) (by decide) (by decide) (by decide)⟩

/-! ## Hashing theorems -/

theorem hashAcc_ok (hfs : String → Option HashNode) (files : List String)
    (h : ∀ f ∈ files, (hfs f).isSome) (acc : List Nat) :
    hashAcc hfs acc files = .ok (acc ++ nonDirContents hfs files) := by
  induction files generalizing acc with
  | nil => simp [hashAcc, nonDirContents]
  | cons n rest ih =>
    have hn : (hfs n).isSome := h n (List.mem_cons_self n rest)
    have hrest : ∀ f ∈ rest, (hfs f).isSome := fun f hf => h f (List.mem_cons_of_mem n hf)
    cases hh : hfs n with
    | none => rw [hh] at hn; cases hn
    | some node =>
      cases node with
      | dirNode =>
        simp [hashAcc, hashOne, hh, nonDirContents, ih hrest]
      | fileNode c =>
        simp [hashAcc, hashOne, hh, nonDirContents, ih hrest, List.append_assoc]

theorem hexEncode_length (l : List Nat) : (hexEncode l).length = 2 * l.length := by
  have hdata : ∀ m : List Nat, ((m.map hexByte).flatten).length = 2 * m.length := by
    intro m
    induction m with
    | nil => rfl
    | cons b rest ih =>
      simp only [List.map_cons, List.flatten_cons, List.length_append, ih, hexByte,
        List.length_cons, List.length_nil]
      omega
  simpa [hexEncode, String.length] using hdata l

/-- C9: when every listed path can be opened, HashFiles succeeds and
returns the hex encoding of the digest of the concatenated byte
contents of the non-directory entries, in input order (directories
contribute nothing and cause no error); with a 16-byte digest the
result always has the fixed length 32. -/
theorem hashFiles_concat_digest (hfs : String → Option HashNode)
    (digest : List Nat → List Nat) (files : List String)
    (hopen : ∀ f ∈ files, (hfs f).isSome)
    (hlen : ∀ l, (digest l).length = 16) :
    hashFiles hfs digest files
      = .ok (hexEncode (digest (nonDirContents hfs files))) ∧
    (hexEncode (digest (nonDirContents hfs files))).length = 32 := by
  constructor
  · rw [hashFiles, hashAcc_ok hfs files hopen []]
    rfl
  · rw [hexEncode_length, hlen]

theorem hashFiles_concat_digest_witness :
    (∀ f ∈ ["somedir", "somefile"],
        ((fun n => if n = "somedir" then some HashNode.dirNode
          else if n = "somefile" then some (HashNode.fileNode [1, 2]) else none) f
          |>.isSome)) ∧
    hashFiles
        (fun n => if n = "somedir" then some HashNode.dirNode
          else if n = "somefile" then some (HashNode.fileNode [1, 2]) else none)
        (fun l => List.replicate 16 (l.length % 256)) ["somedir", "somefile"]
      = .ok (hexEncode ((fun l => List.replicate 16 (l.length % 256))
          (nonDirContents
            (fun n => if n = "somedir" then some HashNode.dirNode
              else if n = "somefile" then some (HashNode.fileNode [1, 2]) else none)
            ["somedir", "somefile"]))) :=
  ⟨by decide,
    (hashFiles_concat_digest
      (fun n => if n = "somedir" then some HashNode.dirNode
        else if n = "somefile" then some (HashNode.fileNode [1, 2]) else none)
      (fun l => List.replicate 16 (l.length % 256)) ["somedir", "somefile"]
      (by decide) (fun l => by simp)).1⟩

/-- C10: HashFiles applied to an empty path list (as HashGlob produces
for a pattern matching nothing) succeeds and returns the hex digest of
the empty input. -/
theorem hashFiles_empty_ok (hfs : String → Option HashNode)
    (digest : List Nat → List Nat) :
    hashFiles hfs digest [] = .ok (hexEncode (digest [])) ∧
    hashGlob hfs digest [] = .ok (hexEncode (digest [])) :=
  ⟨rfl, rfl⟩

/-! ## Round-trip: the saved archive of a tree restores to the tree

The Save side walks the directory (archiver.FilesFromDisk) and the
codec streams one tar entry per node; the Restore side replays the
handler over that entry stream.  The codec is assumed faithful (as the
round-trip claim itself assumes), so the archive of a tree is its
per-node entry list. -/

/-- The tar entry the Save-side pipeline produces for one tree node:
directories and symlinks carry their conventional walk modes, regular
files carry their content and mode bits, symlinks their target
verbatim. -/
def entryOfNode : Path × Node → TarEntry
  | (p, .dir) => ⟨true, p, .dirType, "", 493, []⟩
  | (p, .file c m) => ⟨true, p, .reg, "", m, c⟩
  | (p, .symlink t) => ⟨true, p, .symlink, t, 511, []⟩

/-- The archive entry stream of a directory tree. -/
def entriesOfTree (tree : List (Path × Node)) : List TarEntry :=
  tree.map entryOfNode

/-- A well-formed directory tree listing: node paths are distinct and
nonempty, and every proper nonempty prefix of a node path is listed as
a directory. -/
def TreeWF (tree : List (Path × Node)) : Prop :=
  (tree.map Prod.fst).Nodup ∧
  ∀ e ∈ tree, e.1 ≠ [] ∧ ∀ q ∈ pathPrefixes e.1.dropLast, (q, Node.dir) ∈ tree

instance (tree : List (Path × Node)) : Decidable (TreeWF tree) := by
  unfold TreeWF
  infer_instance

theorem FS.lookup_insert (fs : FS) (p q : Path) (n : Node) :
    (fs.insert p n).lookup q = if p = q then some n else fs.lookup q := rfl

theorem lookup_foldl_insert_dirs (l : List Path) (fs : FS) (q : Path) :
    (l.foldl (fun f r => FS.insert f r .dir) fs).lookup q
      = if q ∈ l then some Node.dir else fs.lookup q := by
  induction l generalizing fs with
  | nil => simp
  | cons a rest ih =>
    rw [List.foldl_cons, ih]
    by_cases hq : q ∈ rest
    · simp [hq]
    · by_cases ha : a = q
      · simp [hq, ha, FS.lookup_insert]
      · have : ¬q = a := fun hcontra => ha hcontra.symm
        simp [hq, ha, this, FS.lookup_insert]

theorem dropLast_cons_of_ne (d : String) (p : Path) (hp : p ≠ []) :
    (d :: p).dropLast = d :: p.dropLast := by
  cases p with
  | nil => exact absurd rfl hp
  | cons x xs => rfl

theorem pathPrefixes_cons (d : String) (p : Path) :
    pathPrefixes (d :: p) = [d] :: (pathPrefixes p).map (List.cons d) := by
  unfold pathPrefixes
  rw [List.length_cons, List.range_succ_eq_map, List.map_cons, List.map_map, List.map_map]
  congr 1

theorem pathPrefixes_split (p : Path) (hp : p ≠ []) :
    pathPrefixes p = pathPrefixes p.dropLast ++ [p] := by
  unfold pathPrefixes
  have hlen : p.length = p.dropLast.length + 1 := by
    rw [List.length_dropLast]
    have : 0 < p.length := List.length_pos.mpr hp
    omega
  rw [hlen, List.range_succ, List.map_append, List.map_singleton]
  congr 1
  · apply List.map_congr_left
    intro i hi
    rw [List.mem_range] at hi
    rw [List.dropLast_eq_take, List.take_take]
    congr 1
    omega
  · rw [← hlen, List.take_length]

theorem self_mem_pathPrefixes (p : Path) (hp : p ≠ []) : p ∈ pathPrefixes p := by
  rw [pathPrefixes_split p hp]
  simp

theorem mem_pathPrefixes_length {q p : Path} (h : q ∈ pathPrefixes p) :
    q.length ≤ p.length := by
  unfold pathPrefixes at h
  rcases List.mem_map.mp h with ⟨i, _, rfl⟩
  simp [List.length_take]

theorem mem_pathPrefixes_ne_nil {q p : Path} (h : q ∈ pathPrefixes p) : q ≠ [] := by
  unfold pathPrefixes at h
  rcases List.mem_map.mp h with ⟨i, hi, rfl⟩
  rw [List.mem_range] at hi
  intro hcontra
  rcases List.take_eq_nil_iff.mp hcontra with h0 | h0
  · exact Nat.succ_ne_zero i h0
  · rw [h0] at hi
    exact Nat.not_lt_zero i hi

theorem nodup_keys_unique {tree : List (Path × Node)}
    (hnd : (tree.map Prod.fst).Nodup) {p : Path} {n1 n2 : Node}
    (h1 : (p, n1) ∈ tree) (h2 : (p, n2) ∈ tree) : n1 = n2 := by
  induction tree with
  | nil => cases h1
  | cons e rest ih =>
    rw [List.map_cons, List.nodup_cons] at hnd
    rcases List.mem_cons.mp h1 with h1e | h1r
    · rcases List.mem_cons.mp h2 with h2e | h2r
      · exact congrArg Prod.snd (h1e.trans h2e.symm)
      · exfalso
        apply hnd.1
        rw [← h1e]
        exact List.mem_map.mpr ⟨(p, n2), h2r, rfl⟩
    · rcases List.mem_cons.mp h2 with h2e | h2r
      · exfalso
        apply hnd.1
        rw [← h2e]
        exact List.mem_map.mpr ⟨(p, n1), h1r, rfl⟩
      · exact ih hnd.2 h1r h2r

/-- Invariant maintained while extracting a well-formed tree's entries:
everything present on disk is the target root, an already extracted
entry, or a directory of the tree created ahead of its own entry by
MkdirAll; and the root plus every already extracted entry are present
with their exact nodes. -/
def RestoredInv (tree done : List (Path × Node)) (d : String) (fs : FS) : Prop :=
  (∀ q n, fs.lookup q = some n →
    (q = [d] ∧ n = Node.dir) ∨
    (∃ p, (p, n) ∈ done ∧ q = d :: p) ∨
    (n = Node.dir ∧ ∃ p, (p, Node.dir) ∈ tree ∧ q = d :: p)) ∧
  fs.lookup [d] = some Node.dir ∧
  ∀ p n, (p, n) ∈ done → fs.lookup (d :: p) = some n

theorem entry_not_in_done {tree done rest : List (Path × Node)} {p : Path} {nd : Node}
    (hnd : (tree.map Prod.fst).Nodup) (htree : tree = done ++ (p, nd) :: rest) :
    p ∉ done.map Prod.fst := by
  subst htree
  rw [List.map_append, List.map_cons, List.nodup_append] at hnd
  intro hmem
  exact hnd.2.2 hmem (List.mem_cons_self _ _)

theorem inv_lookup_treeDir {tree done : List (Path × Node)} {d : String} {fs : FS}
    (hwf : TreeWF tree) (hinv : RestoredInv tree done d fs)
    (hsub : ∀ x ∈ done, x ∈ tree)
    {q' : Path} (hq : (q', Node.dir) ∈ tree) :
    isDirOrAbsent fs (d :: q') = true := by
  unfold isDirOrAbsent
  cases hl : fs.lookup (d :: q') with
  | none => rfl
  | some n =>
    rcases hinv.1 _ _ hl with ⟨hq1, _⟩ | ⟨p2, hp2, hq2⟩ | ⟨hn, _⟩
    · exfalso
      injection hq1 with _ h
      exact (hwf.2 _ hq).1 h
    · have hp2q : p2 = q' := by
        injection hq2 with _ h
        exact h.symm
      subst hp2q
      have hn : n = Node.dir := nodup_keys_unique hwf.1 (hsub _ hp2) hq
      rw [hn]
    · rw [hn]

theorem inv_lookup_entry_none {tree done rest : List (Path × Node)} {d : String}
    {fs : FS} {p : Path} {nd : Node}
    (hwf : TreeWF tree) (htree : tree = done ++ (p, nd) :: rest)
    (hinv : RestoredInv tree done d fs) (hnd : nd ≠ Node.dir) :
    fs.lookup (d :: p) = none := by
  cases hl : fs.lookup (d :: p) with
  | none => rfl
  | some n =>
    exfalso
    have hmem : (p, nd) ∈ tree := by
      rw [htree]
      exact List.mem_append_right _ (List.mem_cons_self _ _)
    have hpn : p ≠ [] := (hwf.2 _ hmem).1
    have hnotdone := entry_not_in_done hwf.1 htree
    rcases hinv.1 _ _ hl with ⟨hq1, _⟩ | ⟨p2, hp2, hq2⟩ | ⟨_, p2, hp2, hq2⟩
    · injection hq1 with _ h
      exact hpn h
    · have hp2q : p2 = p := by
        injection hq2 with _ h
        exact h.symm
      subst hp2q
      exact hnotdone (List.mem_map.mpr ⟨(p2, n), hp2, rfl⟩)
    · have hp2q : p2 = p := by
        injection hq2 with _ h
        exact h.symm
      subst hp2q
      exact hnd (nodup_keys_unique hwf.1 hmem hp2)

theorem inv_extend {tree done rest : List (Path × Node)} {d : String}
    {p : Path} {nd : Node} {fs fs' : FS}
    (hwf : TreeWF tree) (htree : tree = done ++ (p, nd) :: rest)
    (hinv : RestoredInv tree done d fs)
    (createdDirs : List Path)
    (hcd : ∀ q ∈ createdDirs, q = [d] ∨ ∃ q', (q', Node.dir) ∈ tree ∧ q = d :: q')
    (hlk : ∀ q, fs'.lookup q = if q = d :: p then some nd
      else if q ∈ createdDirs then some Node.dir else fs.lookup q) :
    RestoredInv tree (done ++ [(p, nd)]) d fs' := by
  have hmem : (p, nd) ∈ tree := by
    rw [htree]
    exact List.mem_append_right _ (List.mem_cons_self _ _)
  have hpn : p ≠ [] := (hwf.2 _ hmem).1
  have hnotdone := entry_not_in_done hwf.1 htree
  refine ⟨?_, ?_, ?_⟩
  · intro q n hl
    rw [hlk q] at hl
    by_cases h1 : q = d :: p
    · rw [if_pos h1] at hl
      have hn : n = nd := (Option.some.inj hl).symm
      right; left
      exact ⟨p, List.mem_append_right _ (hn ▸ List.mem_singleton.mpr rfl), h1⟩
    · rw [if_neg h1] at hl
      by_cases h2 : q ∈ createdDirs
      · rw [if_pos h2] at hl
        have hn : n = Node.dir := (Option.some.inj hl).symm
        rcases hcd q h2 with hq | ⟨q', hq', rfl⟩
        · left; exact ⟨hq, hn⟩
        · right; right; exact ⟨hn, q', hq', rfl⟩
      · rw [if_neg h2] at hl
        rcases hinv.1 q n hl with h | ⟨p2, hp2, hq2⟩ | h
        · left; exact h
        · right; left; exact ⟨p2, List.mem_append_left _ hp2, hq2⟩
        · right; right; exact h
  · rw [hlk [d]]
    have h1 : ¬([d] = d :: p) := by
      intro hcontra
      injection hcontra with _ h
      exact hpn h.symm
    rw [if_neg h1]
    by_cases h2 : [d] ∈ createdDirs
    · rw [if_pos h2]
    · rw [if_neg h2]
      exact hinv.2.1
  · intro p2 n2 hmem2
    rcases List.mem_append.mp hmem2 with hmem2 | hmem2
    · have hold := hinv.2.2 p2 n2 hmem2
      rw [hlk (d :: p2)]
      have hne : ¬(d :: p2 = d :: p) := by
        intro hcontra
        injection hcontra with _ h
        exact hnotdone (h ▸ List.mem_map.mpr ⟨(p2, n2), hmem2, rfl⟩)
      rw [if_neg hne]
      by_cases h2 : (d :: p2) ∈ createdDirs
      · rw [if_pos h2]
        have hmem2t : (p2, n2) ∈ tree := by
          rw [htree]
          exact List.mem_append_left _ hmem2
        rcases hcd _ h2 with hq | ⟨q', hq', heq⟩
        · exfalso
          injection hq with _ h
          exact (hwf.2 _ hmem2t).1 h
        · have hq2 : q' = p2 := by
            injection heq with _ h
            exact h.symm
          subst hq2
          rw [nodup_keys_unique hwf.1 hmem2t hq']
      · rw [if_neg h2]
        exact hold
    · have heq := List.mem_singleton.mp hmem2
      have hp2 : p2 = p := congrArg Prod.fst heq
      have hn2 : n2 = nd := congrArg Prod.snd heq
      subst hp2
      subst hn2
      rw [hlk (d :: p2), if_pos rfl]

theorem mkdirAll_cons_ok {tree done : List (Path × Node)} {d : String} {fs : FS}
    (hwf : TreeWF tree) (hinv : RestoredInv tree done d fs)
    (hsub : ∀ x ∈ done, x ∈ tree)
    (p0 : Path) (hP : ∀ q' ∈ pathPrefixes p0, (q', Node.dir) ∈ tree) :
    mkdirAll fs (d :: p0)
      = some ((pathPrefixes (d :: p0)).foldl (fun f q => FS.insert f q .dir) fs) ∧
    ∀ q, ((pathPrefixes (d :: p0)).foldl (fun f q => FS.insert f q .dir) fs).lookup q
      = if q ∈ pathPrefixes (d :: p0) then some Node.dir else fs.lookup q := by
  have hall : (pathPrefixes (d :: p0)).all (isDirOrAbsent fs) = true := by
    rw [List.all_eq_true]
    intro q hq
    rw [pathPrefixes_cons] at hq
    rcases List.mem_cons.mp hq with rfl | hq
    · unfold isDirOrAbsent
      rw [hinv.2.1]
    · rcases List.mem_map.mp hq with ⟨q', hq', rfl⟩
      exact inv_lookup_treeDir hwf hinv hsub (hP q' hq')
  constructor
  · simp [mkdirAll, hall]
  · intro q
    exact lookup_foldl_insert_dirs _ _ _

theorem handler_dir_step {tree done rest : List (Path × Node)} {d goos : String}
    {fs : FS} {p : Path}
    (hwf : TreeWF tree) (htree : tree = done ++ (p, Node.dir) :: rest)
    (hinv : RestoredInv tree done d fs) :
    (handler goos (fun _ => false) d fs (entryOfNode (p, Node.dir))).err = none ∧
    ∀ q, (handler goos (fun _ => false) d fs (entryOfNode (p, Node.dir))).fs.lookup q
      = if q = d :: p then some Node.dir
        else if q ∈ pathPrefixes (d :: p) then some Node.dir else fs.lookup q := by
  have hsub : ∀ x ∈ done, x ∈ tree := by
    intro x hx
    rw [htree]
    exact List.mem_append_left _ hx
  have hmem : (p, Node.dir) ∈ tree := by
    rw [htree]
    exact List.mem_append_right _ (List.mem_cons_self _ _)
  have hpn : p ≠ [] := (hwf.2 _ hmem).1
  have hP : ∀ q' ∈ pathPrefixes p, (q', Node.dir) ∈ tree := by
    intro q' hq'
    rw [pathPrefixes_split p hpn] at hq'
    rcases List.mem_append.mp hq' with hq' | hq'
    · exact (hwf.2 _ hmem).2 q' hq'
    · rw [List.mem_singleton.mp hq']
      exact hmem
  obtain ⟨hmk, hlk⟩ := mkdirAll_cons_ok hwf hinv hsub p hP
  have hred : handler goos (fun _ => false) d fs (entryOfNode (p, Node.dir))
      = ⟨[.mkdirAllOp (d :: p)],
         (pathPrefixes (d :: p)).foldl (fun f q => FS.insert f q .dir) fs, none⟩ := by
    simp [handler, entryOfNode, hmk]
  rw [hred]
  refine ⟨rfl, ?_⟩
  intro q
  rw [hlk q]
  by_cases h1 : q = d :: p
  · have h2 : q ∈ pathPrefixes (d :: p) := by
      rw [h1]
      exact self_mem_pathPrefixes _ (List.cons_ne_nil _ _)
    rw [if_pos h2, if_pos h1]
  · rw [if_neg h1]

theorem not_mem_pathPrefixes_parent {d : String} {p : Path} (hpn : p ≠ []) :
    (d :: p) ∉ pathPrefixes (d :: p.dropLast) := by
  intro hmem
  have hle := mem_pathPrefixes_length hmem
  have h1 : 0 < p.length := List.length_pos.mpr hpn
  simp [List.length_dropLast] at hle
  omega

theorem handler_file_step {tree done rest : List (Path × Node)} {d goos : String}
    {fs : FS} {p : Path} {c : List Nat} {m : Nat}
    (hwf : TreeWF tree) (htree : tree = done ++ (p, Node.file c m) :: rest)
    (hinv : RestoredInv tree done d fs) :
    (handler goos (fun _ => false) d fs (entryOfNode (p, Node.file c m))).err = none ∧
    ∀ q, (handler goos (fun _ => false) d fs (entryOfNode (p, Node.file c m))).fs.lookup q
      = if q = d :: p then some (Node.file c m)
        else if q ∈ pathPrefixes (d :: p.dropLast) then some Node.dir
        else fs.lookup q := by
  have hsub : ∀ x ∈ done, x ∈ tree := by
    intro x hx
    rw [htree]
    exact List.mem_append_left _ hx
  have hmem : (p, Node.file c m) ∈ tree := by
    rw [htree]
    exact List.mem_append_right _ (List.mem_cons_self _ _)
  have hpn : p ≠ [] := (hwf.2 _ hmem).1
  have hP : ∀ q' ∈ pathPrefixes p.dropLast, (q', Node.dir) ∈ tree := (hwf.2 _ hmem).2
  obtain ⟨hmk, hlk1⟩ := mkdirAll_cons_ok hwf hinv hsub p.dropLast hP
  have hdrop : (d :: p).dropLast = d :: p.dropLast := dropLast_cons_of_ne d p hpn
  set fs1 : FS := (pathPrefixes (d :: p.dropLast)).foldl (fun f q => FS.insert f q .dir) fs
    with hfs1
  have hpar : parentOk fs1 (d :: p) = true := by
    have hlkpar : fs1.lookup (d :: p.dropLast) = some Node.dir := by
      rw [hlk1]
      exact if_pos (self_mem_pathPrefixes _ (List.cons_ne_nil _ _))
    unfold parentOk
    rw [hdrop]
    simp [isDirAt, hlkpar]
  have hlk1p : fs1.lookup (d :: p) = none := by
    rw [hlk1, if_neg (not_mem_pathPrefixes_parent hpn)]
    exact inv_lookup_entry_none hwf htree hinv (by simp)
  have hcr : createFile fs1 (d :: p) = some (fs1.insert (d :: p) (.file [] 438)) := by
    unfold createFile
    rw [hpar, hlk1p]
    simp
  have hfalse : ¬((fun (_ : Path) => false) (d :: p) = true ∧ goos ≠ "windows") := by
    simp
  have hred : handler goos (fun _ => false) d fs (entryOfNode (p, Node.file c m))
      = ⟨[.mkdirAllOp (d :: p).dropLast, .createOp (d :: p),
          .chmodOp (d :: p) m, .copyOp (d :: p)],
         writeContent
           (chmodFile (fs1.insert (d :: p) (.file [] 438)) (d :: p) m)
           (d :: p) c, none⟩ := by
    simp only [handler, entryOfNode, Bool.not_true, hdrop, hmk, hcr]
    simp [hfalse]
  rw [hred]
  refine ⟨rfl, ?_⟩
  have hch : chmodFile (fs1.insert (d :: p) (.file [] 438)) (d :: p) m
      = (fs1.insert (d :: p) (.file [] 438)).insert (d :: p) (.file [] m) := by
    unfold chmodFile
    rw [FS.lookup_insert, if_pos rfl]
  have hwr : writeContent
      ((fs1.insert (d :: p) (.file [] 438)).insert (d :: p) (.file [] m)) (d :: p) c
      = ((fs1.insert (d :: p) (.file [] 438)).insert (d :: p) (.file [] m)).insert
          (d :: p) (.file c m) := by
    unfold writeContent
    rw [FS.lookup_insert, if_pos rfl]
  intro q
  rw [hch, hwr]
  rw [FS.lookup_insert, FS.lookup_insert, FS.lookup_insert]
  by_cases h1 : d :: p = q
  · rw [if_pos h1, if_pos h1.symm]
  · have h1s : ¬(q = d :: p) := fun hcontra => h1 hcontra.symm
    rw [if_neg h1, if_neg h1, if_neg h1, if_neg h1s, hlk1]

theorem handler_symlink_step {tree done rest : List (Path × Node)} {d goos : String}
    {fs : FS} {p : Path} {t : String}
    (hwf : TreeWF tree) (htree : tree = done ++ (p, Node.symlink t) :: rest)
    (hinv : RestoredInv tree done d fs) :
    (handler goos (fun _ => false) d fs (entryOfNode (p, Node.symlink t))).err = none ∧
    ∀ q, (handler goos (fun _ => false) d fs
        (entryOfNode (p, Node.symlink t))).fs.lookup q
      = if q = d :: p then some (Node.symlink t)
        else if q ∈ pathPrefixes (d :: p.dropLast) then some Node.dir
        else fs.lookup q := by
  have hsub : ∀ x ∈ done, x ∈ tree := by
    intro x hx
    rw [htree]
    exact List.mem_append_left _ hx
  have hmem : (p, Node.symlink t) ∈ tree := by
    rw [htree]
    exact List.mem_append_right _ (List.mem_cons_self _ _)
  have hpn : p ≠ [] := (hwf.2 _ hmem).1
  have hP : ∀ q' ∈ pathPrefixes p.dropLast, (q', Node.dir) ∈ tree := (hwf.2 _ hmem).2
  obtain ⟨hmk, hlk1⟩ := mkdirAll_cons_ok hwf hinv hsub p.dropLast hP
  have hdrop : (d :: p).dropLast = d :: p.dropLast := dropLast_cons_of_ne d p hpn
  set fs1 : FS := (pathPrefixes (d :: p.dropLast)).foldl (fun f q => FS.insert f q .dir) fs
    with hfs1
  have hpar : parentOk fs1 (d :: p) = true := by
    have hlkpar : fs1.lookup (d :: p.dropLast) = some Node.dir := by
      rw [hlk1]
      exact if_pos (self_mem_pathPrefixes _ (List.cons_ne_nil _ _))
    unfold parentOk
    rw [hdrop]
    simp [isDirAt, hlkpar]
  have hlk1p : fs1.lookup (d :: p) = none := by
    rw [hlk1, if_neg (not_mem_pathPrefixes_parent hpn)]
    exact inv_lookup_entry_none hwf htree hinv (by simp)
  have hsl : symlinkFile fs1 t (d :: p) = some (fs1.insert (d :: p) (.symlink t)) := by
    unfold symlinkFile
    rw [hpar, hlk1p]
    simp
  have hred : handler goos (fun _ => false) d fs (entryOfNode (p, Node.symlink t))
      = ⟨[.mkdirAllOp (d :: p).dropLast, .symlinkOp t (d :: p)],
         fs1.insert (d :: p) (.symlink t), none⟩ := by
    simp only [handler, entryOfNode, Bool.not_true, hdrop, hmk, hsl]
    simp
  rw [hred]
  refine ⟨rfl, ?_⟩
  intro q
  rw [FS.lookup_insert]
  by_cases h1 : d :: p = q
  · rw [if_pos h1, if_pos h1.symm]
  · have h1s : ¬(q = d :: p) := fun hcontra => h1 hcontra.symm
    rw [if_neg h1, if_neg h1s, hlk1]

theorem handler_step {tree done rest : List (Path × Node)} {d goos : String}
    {fs : FS} (e : Path × Node)
    (hwf : TreeWF tree) (htree : tree = done ++ e :: rest)
    (hinv : RestoredInv tree done d fs) :
    (handler goos (fun _ => false) d fs (entryOfNode e)).err = none ∧
    RestoredInv tree (done ++ [e]) d
      (handler goos (fun _ => false) d fs (entryOfNode e)).fs := by
  obtain ⟨p, nd⟩ := e
  have hmem : (p, nd) ∈ tree := by
    rw [htree]
    exact List.mem_append_right _ (List.mem_cons_self _ _)
  have hpn : p ≠ [] := (hwf.2 _ hmem).1
  cases nd with
  | dir =>
    obtain ⟨herr, hlk⟩ := handler_dir_step hwf htree hinv
    refine ⟨herr, inv_extend hwf htree hinv (pathPrefixes (d :: p)) ?_ hlk⟩
    intro q hq
    rw [pathPrefixes_cons] at hq
    rcases List.mem_cons.mp hq with rfl | hq
    · exact Or.inl rfl
    · rcases List.mem_map.mp hq with ⟨q', hq', rfl⟩
      right
      refine ⟨q', ?_, rfl⟩
      rw [pathPrefixes_split p hpn] at hq'
      rcases List.mem_append.mp hq' with hq' | hq'
      · exact (hwf.2 _ hmem).2 q' hq'
      · rw [List.mem_singleton.mp hq']
        exact hmem
  | file c m =>
    obtain ⟨herr, hlk⟩ := handler_file_step hwf htree hinv
    refine ⟨herr, inv_extend hwf htree hinv (pathPrefixes (d :: p.dropLast)) ?_ hlk⟩
    intro q hq
    rw [pathPrefixes_cons] at hq
    rcases List.mem_cons.mp hq with rfl | hq
    · exact Or.inl rfl
    · rcases List.mem_map.mp hq with ⟨q', hq', rfl⟩
      exact Or.inr ⟨q', (hwf.2 _ hmem).2 q' hq', rfl⟩
  | symlink t =>
    obtain ⟨herr, hlk⟩ := handler_symlink_step hwf htree hinv
    refine ⟨herr, inv_extend hwf htree hinv (pathPrefixes (d :: p.dropLast)) ?_ hlk⟩
    intro q hq
    rw [pathPrefixes_cons] at hq
    rcases List.mem_cons.mp hq with rfl | hq
    · exact Or.inl rfl
    · rcases List.mem_map.mp hq with ⟨q', hq', rfl⟩
      exact Or.inr ⟨q', (hwf.2 _ hmem).2 q' hq', rfl⟩

theorem extract_entries_inv (tree : List (Path × Node)) (d goos : String)
    (hwf : TreeWF tree) :
    ∀ (todo done : List (Path × Node)) (fs : FS), tree = done ++ todo →
      RestoredInv tree done d fs →
    (extract goos (fun _ => false) d fs (entriesOfTree todo)).2 = none ∧
    RestoredInv tree tree d
      (extract goos (fun _ => false) d fs (entriesOfTree todo)).1 := by
  intro todo
  induction todo with
  | nil =>
    intro done fs htree hinv
    rw [List.append_nil] at htree
    subst htree
    exact ⟨rfl, hinv⟩
  | cons e rest2 ih =>
    intro done fs htree hinv
    obtain ⟨herr, hinv2⟩ := handler_step e hwf htree hinv
    have htree2 : tree = (done ++ [e]) ++ rest2 := by
      rw [htree, List.append_assoc]
      rfl
    have hext : extract goos (fun _ => false) d fs (entriesOfTree (e :: rest2))
        = extract goos (fun _ => false) d
            (handler goos (fun _ => false) d fs (entryOfNode e)).fs
            (entriesOfTree rest2) := by
      show extract goos (fun _ => false) d fs
          (entryOfNode e :: entriesOfTree rest2) = _
      rw [extract, herr]
    rw [hext]
    exact ih (done ++ [e]) _ htree2 hinv2

/-- C3: round-trip of the archive pipeline.  For every well-formed tree
of directories, regular files and symlinks, extracting the entry stream
the Save side archives (the external codec assumed to round-trip
entries faithfully, as the claim assumes) into a fresh target directory
succeeds, and the resulting filesystem holds exactly the target root
plus the tree's nodes at their relative paths — with identical file
contents, identical symlink targets and identical mode bits (the
platform's chmod assumed compatible: no chmod failures). -/
theorem archive_roundtrip (tree : List (Path × Node)) (d goos : String)
    (hwf : TreeWF tree) :
    (extract goos (fun _ => false) d [([d], Node.dir)] (entriesOfTree tree)).2
        = none ∧
    ∀ q n,
      (extract goos (fun _ => false) d [([d], Node.dir)]
          (entriesOfTree tree)).1.lookup q = some n ↔
        ((q = [d] ∧ n = Node.dir) ∨ ∃ p, (p, n) ∈ tree ∧ q = d :: p) := by
  have hinv0 : RestoredInv tree [] d [([d], Node.dir)] := by
    refine ⟨?_, ?_, ?_⟩
    · intro q n hl
      have hl2 : (if [d] = q then some Node.dir else FS.lookup [] q) = some n := hl
      by_cases h : [d] = q
      · rw [if_pos h] at hl2
        exact Or.inl ⟨h.symm, (Option.some.inj hl2).symm⟩
      · rw [if_neg h] at hl2
        cases hl2
    · simp [FS.lookup]
    · intro p n h
      cases h
  obtain ⟨herr, hinv⟩ :=
    extract_entries_inv tree d goos hwf tree [] [([d], Node.dir)] rfl hinv0
  refine ⟨herr, ?_⟩
  intro q n
  constructor
  · intro hl
    rcases hinv.1 q n hl with h | ⟨p, hp, hq⟩ | ⟨hn, p, hp, hq⟩
    · exact Or.inl h
    · exact Or.inr ⟨p, hp, hq⟩
    · subst hn
      exact Or.inr ⟨p, hp, hq⟩
  · intro h
    rcases h with ⟨rfl, rfl⟩ | ⟨p, hp, rfl⟩
    · exact hinv.2.1
    · exact hinv.2.2 p n hp

theorem archive_roundtrip_witness :
    TreeWF [(["a"], Node.dir), (["a", "f"], Node.file [7] 420),
      (["l"], Node.symlink "a/f")] ∧
    (extract "linux" (fun _ => false) "dest" [(["dest"], Node.dir)]
        (entriesOfTree [(["a"], Node.dir), (["a", "f"], Node.file [7] 420),
          (["l"], Node.symlink "a/f")])).2 = none :=
  ⟨by decide,
    (archive_roundtrip
      [(["a"], Node.dir), (["a", "f"], Node.file [7] 420),
        (["l"], Node.symlink "a/f")] "dest" "linux" (by decide)).1⟩

end GcsCacher
